import Mathlib

/-!
# Verification of the BytePairEncoding repository (`bpe_encoder.py`)

A shallow embedding of the BPE encoder/decoder from `src/bpe_encoder.py`:

* Python `dict` objects are embedded as insertion-ordered association lists
  (`dget` / `dinsert` model `d.get(k)` / `d[k] = v`);
* the merge table `self.merges : Dict[Tuple[int,int], int]` becomes
  `MergeDict = List ((Int × Int) × Int)`;
* the derived vocabulary `self._vocab : Dict[int, bytes]` becomes
  `Vocab = List (Int × List Nat)` (a byte is a `Nat` < 256);
* text is a list of Unicode scalar values (`List Nat`); Python's
  `str.encode("utf-8")` and `bytes.decode("utf-8", errors="replace")` are
  embedded as `utf8Encode` and `utf8DecodeReplace` (the latter follows
  CPython's replacement behaviour: one U+FFFD per maximal ill-formed
  subpart);
* fallible Python code (`KeyError`, `ValueError`) returns `Option`.
-/

namespace BPE

/-- Lookup in an association list; models Python `dict` indexing /
`dict.get` (returning `none` where Python raises `KeyError` /
returns the default). -/
def dget {κ α : Type} [DecidableEq κ] : List (κ × α) → κ → Option α
  | [], _ => none
  | e :: d, k => if e.1 = k then some e.2 else dget d k

/-- Assignment `d[k] = v` on a Python dict: if the key is present its value
is updated in place (insertion position kept), otherwise the binding is
appended at the end (Python 3.7+ insertion-order semantics). -/
def dinsert {κ α : Type} [DecidableEq κ] (d : List (κ × α)) (k : κ) (v : α) :
    List (κ × α) :=
  if (dget d k).isSome then d.map (fun e => if e.1 = k then (k, v) else e)
  else d ++ [(k, v)]

theorem dget_mem {κ α : Type} [DecidableEq κ] {d : List (κ × α)} {k : κ} {v : α}
    (h : dget d k = some v) : (k, v) ∈ d := by
  induction d with
  | nil => simp [dget] at h
  | cons e d ih =>
    by_cases he : e.1 = k
    · simp only [dget, if_pos he] at h
      have hv : e.2 = v := Option.some_injective _ h
      have hkv : (k, v) = e := by
        obtain ⟨a, b⟩ := e
        simp only [Prod.mk.injEq]
        exact ⟨he.symm, hv.symm⟩
      rw [hkv]
      exact List.mem_cons_self _ _
    · simp only [dget, if_neg he] at h
      exact List.mem_cons_of_mem _ (ih h)

theorem dget_append {κ α : Type} [DecidableEq κ] (d₁ d₂ : List (κ × α)) (k : κ) :
    dget (d₁ ++ d₂) k = match dget d₁ k with
      | some v => some v
      | none => dget d₂ k := by
  induction d₁ with
  | nil => simp [dget]
  | cons e d ih =>
    by_cases he : e.1 = k
    · simp [dget, if_pos he]
    · simp [dget, if_neg he, ih]

theorem dget_map_update_self {κ α : Type} [DecidableEq κ] (d : List (κ × α))
    (k : κ) (v : α) (hs : (dget d k).isSome) :
    dget (d.map (fun e => if e.1 = k then (k, v) else e)) k = some v := by
  induction d with
  | nil => simp [dget] at hs
  | cons e d ih =>
    by_cases he : e.1 = k
    · simp [dget, if_pos he]
    · simp only [dget, if_neg he] at hs
      simp only [List.map_cons, if_neg he, dget, if_neg he]
      exact ih hs

theorem dget_map_update_ne {κ α : Type} [DecidableEq κ] (d : List (κ × α))
    (k k' : κ) (v : α) (hne : k' ≠ k) :
    dget (d.map (fun e => if e.1 = k then (k, v) else e)) k' = dget d k' := by
  induction d with
  | nil => simp [dget]
  | cons e d ih =>
    by_cases he : e.1 = k
    · simp only [List.map_cons, if_pos he, dget, if_neg (Ne.symm hne)]
      rw [if_neg (by rw [he]; exact Ne.symm hne)]
      exact ih
    · simp only [List.map_cons, if_neg he, dget]
      by_cases he' : e.1 = k'
      · rw [if_pos he', if_pos he']
      · rw [if_neg he', if_neg he']
        exact ih

theorem dget_dinsert_self {κ α : Type} [DecidableEq κ] (d : List (κ × α))
    (k : κ) (v : α) : dget (dinsert d k v) k = some v := by
  unfold dinsert
  by_cases hs : (dget d k).isSome
  · rw [if_pos hs]
    exact dget_map_update_self d k v hs
  · rw [if_neg hs, dget_append]
    rw [Option.not_isSome_iff_eq_none] at hs
    simp [hs, dget]

theorem dget_dinsert_ne {κ α : Type} [DecidableEq κ] (d : List (κ × α))
    (k k' : κ) (v : α) (hne : k' ≠ k) :
    dget (dinsert d k v) k' = dget d k' := by
  unfold dinsert
  by_cases hs : (dget d k).isSome
  · rw [if_pos hs]
    exact dget_map_update_ne d k k' v hne
  · rw [if_neg hs, dget_append]
    cases hk : dget d k' with
    | some v' => rfl
    | none => simp [dget, Ne.symm hne]

theorem dget_dinsert_isSome {κ α : Type} [DecidableEq κ] (d : List (κ × α))
    (k k' : κ) (v : α) (h : (dget d k').isSome) :
    (dget (dinsert d k v) k').isSome := by
  by_cases hk : k' = k
  · subst hk; rw [dget_dinsert_self]; rfl
  · rw [dget_dinsert_ne d k k' v hk]; exact h

theorem dget_eq_none_of_not_mem_keys {κ α : Type} [DecidableEq κ]
    {d : List (κ × α)} {k : κ} (h : k ∉ d.map (fun e => e.1)) :
    dget d k = none := by
  induction d with
  | nil => rfl
  | cons e d ih =>
    simp only [List.map_cons, List.mem_cons] at h
    push_neg at h
    have h1 : ¬e.1 = k := by
      intro he
      exact h.1 he.symm
    simp only [dget, if_neg h1]
    exact ih h.2

theorem dinsert_fresh {κ α : Type} [DecidableEq κ] (d : List (κ × α))
    (k : κ) (v : α) (h : dget d k = none) : dinsert d k v = d ++ [(k, v)] := by
  unfold dinsert
  rw [if_neg (by simp [h])]

/-- The merge table `self.merges : Dict[Tuple[int, int], int]`, as an
insertion-ordered association list from `(left, right)` pairs to result
token IDs. -/
abbrev MergeDict := List ((Int × Int) × Int)

/-- The derived vocabulary `self._vocab : Dict[int, bytes]`. -/
abbrev Vocab := List (Int × List Nat)

/-- `{idx: bytes([idx]) for idx in range(256)}` — the 256 base byte
entries seeded by `_build_vocab`. -/
def baseVocab : Vocab := (List.range 256).map (fun (b : Nat) => ((b : Int), [b]))

/-- `sorted(self.merges.items(), key=lambda x: x[1])` — Python's `sorted`
is a stable sort by the rule's result ID; insertion sort with `≤` on the
result is stable, so it models it exactly. -/
def sortMerges (m : MergeDict) : MergeDict :=
  m.insertionSort (fun a b => a.2 ≤ b.2)

/-- The loop of `_build_vocab`:
`for (p0, p1), idx in sorted_merges: vocab[idx] = vocab[p0] + vocab[p1]`.
A missing operand entry raises `KeyError` in Python, modelled by `none`. -/
def buildVocabAux : Vocab → MergeDict → Option Vocab
  | v, [] => some v
  | v, e :: rest =>
    match dget v e.1.1, dget v e.1.2 with
    | some b0, some b1 => buildVocabAux (dinsert v e.2 (b0 ++ b1)) rest
    | _, _ => none

/-- `BPEEncoder._build_vocab`: seed the 256 byte tokens, then apply the
merges in ascending result order.  `none` models the constructor raising
`KeyError` on a rule whose operands have no vocabulary entry yet. -/
def buildVocab (m : MergeDict) : Option Vocab :=
  buildVocabAux baseVocab (sortMerges m)

theorem dget_range_map (n b : Nat) (hb : b < n) :
    dget ((List.range n).map (fun (i : Nat) => ((i : Int), [i])))
      (b : Int) = some [b] := by
  induction n with
  | zero => omega
  | succ n ih =>
    rw [List.range_succ, List.map_append, dget_append]
    by_cases hbn : b < n
    · rw [ih hbn]
    · have hbe : b = n := by omega
      subst hbe
      have hnone : dget ((List.range b).map
          (fun (i : Nat) => ((i : Int), [i]))) (b : Int) = none := by
        apply dget_eq_none_of_not_mem_keys
        intro hmem
        rw [List.map_map] at hmem
        obtain ⟨i, hi, heq⟩ := List.mem_map.1 hmem
        rw [List.mem_range] at hi
        simp only [Function.comp_apply] at heq
        have : i = b := by exact_mod_cast heq
        omega
      rw [hnone]
      simp [dget]

theorem dget_baseVocab (b : Nat) (hb : b < 256) :
    dget baseVocab (b : Int) = some [b] :=
  dget_range_map 256 b hb

theorem dget_baseVocab_none (k : Int) (hk : ¬(0 ≤ k ∧ k < 256)) :
    dget baseVocab k = none := by
  apply dget_eq_none_of_not_mem_keys
  intro hmem
  rw [baseVocab, List.map_map] at hmem
  obtain ⟨i, hi, heq⟩ := List.mem_map.1 hmem
  rw [List.mem_range] at hi
  simp only [Function.comp_apply] at heq
  have hi' : (i : Int) < 256 := by exact_mod_cast hi
  have hi0 : (0 : Int) ≤ (i : Int) := by exact_mod_cast Nat.zero_le i
  rw [heq] at hi' hi0
  exact hk ⟨hi0, hi'⟩

theorem sortMerges_perm (m : MergeDict) : (sortMerges m).Perm m :=
  List.perm_insertionSort _ m

theorem sortMerges_sorted (m : MergeDict) :
    (sortMerges m).Pairwise (fun a b => a.2 ≤ b.2) := by
  have h1 : IsTotal ((Int × Int) × Int) (fun a b => a.2 ≤ b.2) :=
    ⟨fun a b => Int.le_total a.2 b.2⟩
  have h2 : IsTrans ((Int × Int) × Int) (fun a b => a.2 ≤ b.2) :=
    ⟨fun _ _ _ hab hbc => le_trans hab hbc⟩
  exact List.sorted_insertionSort _ m

/-- Inversion of one `_build_vocab` loop step. -/
theorem buildVocabAux_cons_inv (v V : Vocab) (e : (Int × Int) × Int)
    (rest : MergeDict) (h : buildVocabAux v (e :: rest) = some V) :
    ∃ b0 b1, dget v e.1.1 = some b0 ∧ dget v e.1.2 = some b1 ∧
      buildVocabAux (dinsert v e.2 (b0 ++ b1)) rest = some V := by
  simp only [buildVocabAux] at h
  cases h0 : dget v e.1.1 with
  | none =>
    rw [h0] at h
    cases h1 : dget v e.1.2 <;> rw [h1] at h <;> simp at h
  | some b0 =>
    cases h1 : dget v e.1.2 with
    | none => rw [h0, h1] at h; simp at h
    | some b1 =>
      rw [h0, h1] at h
      exact ⟨b0, b1, rfl, rfl, h⟩

/-- Entries whose key is never a later rule's result survive the vocabulary
build unchanged. -/
theorem buildVocabAux_preserve (l : MergeDict) (v V : Vocab) (k : Int)
    (bs : List Nat) (hbuild : buildVocabAux v l = some V)
    (hv : dget v k = some bs) (hfresh : ∀ e ∈ l, e.2 ≠ k) :
    dget V k = some bs := by
  induction l generalizing v with
  | nil =>
    simp only [buildVocabAux] at hbuild
    obtain rfl := Option.some_injective _ hbuild
    exact hv
  | cons e rest ih =>
    obtain ⟨b0, b1, _, _, hrest⟩ := buildVocabAux_cons_inv v V e rest hbuild
    refine ih (dinsert v e.2 (b0 ++ b1)) hrest ?_ ?_
    · rw [dget_dinsert_ne _ _ _ _ (fun h => hfresh e (List.mem_cons_self _ _) h.symm)]
      exact hv
    · exact fun e' he' => hfresh e' (List.mem_cons_of_mem _ he')

/-- A key with no entry, never a rule's result, still has no entry after
the build. -/
theorem buildVocabAux_none (l : MergeDict) (v V : Vocab) (k : Int)
    (hbuild : buildVocabAux v l = some V)
    (hv : dget v k = none) (hfresh : ∀ e ∈ l, e.2 ≠ k) :
    dget V k = none := by
  induction l generalizing v with
  | nil =>
    simp only [buildVocabAux] at hbuild
    obtain rfl := Option.some_injective _ hbuild
    exact hv
  | cons e rest ih =>
    obtain ⟨b0, b1, _, _, hrest⟩ := buildVocabAux_cons_inv v V e rest hbuild
    refine ih (dinsert v e.2 (b0 ++ b1)) hrest ?_ ?_
    · rw [dget_dinsert_ne _ _ _ _ (fun h => hfresh e (List.mem_cons_self _ _) h.symm)]
      exact hv
    · exact fun e' he' => hfresh e' (List.mem_cons_of_mem _ he')

/-- Present entries stay present through the build (values may change). -/
theorem buildVocabAux_isSome_preserve (l : MergeDict) (v V : Vocab) (k : Int)
    (hbuild : buildVocabAux v l = some V) (hv : (dget v k).isSome) :
    (dget V k).isSome := by
  induction l generalizing v with
  | nil =>
    simp only [buildVocabAux] at hbuild
    obtain rfl := Option.some_injective _ hbuild
    exact hv
  | cons e rest ih =>
    obtain ⟨b0, b1, _, _, hrest⟩ := buildVocabAux_cons_inv v V e rest hbuild
    exact ih (dinsert v e.2 (b0 ++ b1)) hrest (dget_dinsert_isSome _ _ _ _ hv)

/-- Every processed rule's result has a vocabulary entry after the build. -/
theorem buildVocabAux_result_isSome (l : MergeDict) (v V : Vocab)
    (hbuild : buildVocabAux v l = some V) :
    ∀ e ∈ l, (dget V e.2).isSome := by
  induction l generalizing v with
  | nil => intro e he; simp at he
  | cons e rest ih =>
    obtain ⟨b0, b1, _, _, hrest⟩ := buildVocabAux_cons_inv v V e rest hbuild
    intro e' he'
    rcases List.mem_cons.1 he' with he'' | he''
    · subst he''
      refine buildVocabAux_isSome_preserve rest _ V e'.2 hrest ?_
      rw [dget_dinsert_self]; rfl
    · exact ih (dinsert v e.2 (b0 ++ b1)) hrest e' he''

/-- If every rule's operands are already present or produced by a rule with
a strictly smaller result, the build of an ascending-sorted rule list
succeeds. -/
theorem buildVocabAux_some (l : MergeDict) (v : Vocab)
    (hsorted : l.Pairwise (fun a b => a.2 ≤ b.2))
    (hops : ∀ e ∈ l, ((dget v e.1.1).isSome ∨ ∃ e' ∈ l, e'.2 = e.1.1 ∧ e'.2 < e.2) ∧
      ((dget v e.1.2).isSome ∨ ∃ e' ∈ l, e'.2 = e.1.2 ∧ e'.2 < e.2)) :
    ∃ V, buildVocabAux v l = some V := by
  induction l generalizing v with
  | nil => exact ⟨v, rfl⟩
  | cons e rest ih =>
    have hsorted' := (List.pairwise_cons.1 hsorted).2
    have hle := (List.pairwise_cons.1 hsorted).1
    -- the head rule's operands must already be present in `v`
    have hget : ∀ p : Int, ((dget v p).isSome ∨ ∃ e' ∈ e :: rest, e'.2 = p ∧ e'.2 < e.2) →
        (dget v p).isSome := by
      rintro p (hp | ⟨e', he', hpe, hlt⟩)
      · exact hp
      · rcases List.mem_cons.1 he' with rfl | he''
        · omega
        · have := hle e' he''
          omega
    obtain ⟨b0, hb0⟩ := Option.isSome_iff_exists.1 (hget e.1.1 ((hops e (List.mem_cons_self _ _)).1))
    obtain ⟨b1, hb1⟩ := Option.isSome_iff_exists.1 (hget e.1.2 ((hops e (List.mem_cons_self _ _)).2))
    have hrec := ih (dinsert v e.2 (b0 ++ b1)) hsorted' ?_
    · obtain ⟨V, hV⟩ := hrec
      refine ⟨V, ?_⟩
      simp only [buildVocabAux, hb0, hb1]
      exact hV
    · intro e' he'
      have hcond : ∀ p : Int,
          ((dget v p).isSome ∨ ∃ f ∈ e :: rest, f.2 = p ∧ f.2 < e'.2) →
          ((dget (dinsert v e.2 (b0 ++ b1)) p).isSome ∨
            ∃ f ∈ rest, f.2 = p ∧ f.2 < e'.2) := by
        rintro p (hp | ⟨f, hf, hpf, hlt⟩)
        · exact Or.inl (dget_dinsert_isSome _ _ _ _ hp)
        · rcases List.mem_cons.1 hf with rfl | hf'
          · left
            rw [hpf, dget_dinsert_self]
            rfl
          · exact Or.inr ⟨f, hf', hpf, hlt⟩
      exact ⟨hcond e'.1.1 (hops e' (List.mem_cons_of_mem _ he')).1,
             hcond e'.1.2 (hops e' (List.mem_cons_of_mem _ he')).2⟩

/-- After a successful build of a strictly-ascending rule list whose
results are fresh, every rule's entry is the concatenation of its operand
entries — and stays so in the final vocabulary. -/
theorem buildVocabAux_entries (l : MergeDict) (v V : Vocab)
    (hsorted : l.Pairwise (fun a b => a.2 < b.2))
    (hfresh : ∀ e ∈ l, dget v e.2 = none)
    (hbuild : buildVocabAux v l = some V) :
    ∀ e ∈ l, ∃ v0 v1, dget V e.1.1 = some v0 ∧ dget V e.1.2 = some v1 ∧
      dget V e.2 = some (v0 ++ v1) := by
  induction l generalizing v with
  | nil => intro e he; simp at he
  | cons e rest ih =>
    obtain ⟨b0, b1, hb0, hb1, hrest⟩ := buildVocabAux_cons_inv v V e rest hbuild
    have hlt := (List.pairwise_cons.1 hsorted).1
    have hsorted' := (List.pairwise_cons.1 hsorted).2
    intro e' he'
    rcases List.mem_cons.1 he' with he'' | he''
    · subst he''
      -- operands differ from e'.2 since e'.2 has no entry yet but they do
      have hne0 : e'.1.1 ≠ e'.2 := by
        intro h
        rw [h, hfresh e' (List.mem_cons_self _ _)] at hb0
        exact Option.noConfusion hb0
      have hne1 : e'.1.2 ≠ e'.2 := by
        intro h
        rw [h, hfresh e' (List.mem_cons_self _ _)] at hb1
        exact Option.noConfusion hb1
      refine ⟨b0, b1, ?_, ?_, ?_⟩
      · refine buildVocabAux_preserve rest _ V e'.1.1 b0 hrest ?_ ?_
        · rw [dget_dinsert_ne _ _ _ _ hne0]; exact hb0
        · intro f hf h
          have hme := hlt f hf
          -- f.2 = e'.1.1, but dget v e'.1.1 is some while rest results are fresh…
          have : dget v f.2 = none := hfresh f (List.mem_cons_of_mem _ hf)
          rw [h] at this
          rw [this] at hb0
          exact Option.noConfusion hb0
      · refine buildVocabAux_preserve rest _ V e'.1.2 b1 hrest ?_ ?_
        · rw [dget_dinsert_ne _ _ _ _ hne1]; exact hb1
        · intro f hf h
          have : dget v f.2 = none := hfresh f (List.mem_cons_of_mem _ hf)
          rw [h] at this
          rw [this] at hb1
          exact Option.noConfusion hb1
      · refine buildVocabAux_preserve rest _ V e'.2 (b0 ++ b1) hrest ?_ ?_
        · rw [dget_dinsert_self]
        · intro f hf h
          have := hlt f hf
          omega
    · refine ih (dinsert v e.2 (b0 ++ b1)) hsorted' ?_ hrest e' he''
      intro f hf
      have hne : f.2 ≠ e.2 := by
        have := hlt f hf
        omega
      rw [dget_dinsert_ne _ _ _ _ hne]
      exact hfresh f (List.mem_cons_of_mem _ hf)

/-! ## The greedy encode loop (`_get_stats`, `_merge`, `encode`) -/

/-- The adjacent pairs `zip(ids, ids[1:])` scanned by `_get_stats`. -/
def adjPairs (ids : List Int) : List (Int × Int) := ids.zip ids.tail

/-- First-occurrence deduplication: the key order of the `counts` dict built
by `_get_stats` (only the keys matter to `encode`, which takes a `min` over
them; the counts themselves are never used). -/
def dedupFirst {α : Type} [DecidableEq α] (seen : List α) : List α → List α
  | [] => []
  | a :: l => if a ∈ seen then dedupFirst seen l else a :: dedupFirst (a :: seen) l

/-- The keys of `self._get_stats(tokens)`, in dict insertion order. -/
def statKeys (ids : List Int) : List (Int × Int) := dedupFirst [] (adjPairs ids)

/-- Strict comparison of `self.merges.get(p, float("inf"))` values:
`none` plays the role of infinity. -/
def rankLt : Option Int → Option Int → Bool
  | some a, some b => a < b
  | some _, none => true
  | none, _ => false

/-- `min(stats, key=lambda p: self.merges.get(p, float("inf")))`.
Python's `min` keeps the earliest element among ties, hence the fold only
replaces the current best on a strictly smaller rank.  `none` models the
`ValueError` of `min` on an empty sequence (unreachable: the loop guard
guarantees at least one adjacent pair). -/
def minByRank (m : MergeDict) : List (Int × Int) → Option (Int × Int)
  | [] => none
  | p :: ps =>
    some (ps.foldl (fun best q => if rankLt (dget m q) (dget m best) then q else best) p)

/-- `BPEEncoder._merge`: one left-to-right pass replacing every
non-overlapping occurrence of `pair` by `idx` (advance two positions on a
match, one otherwise). -/
def mergePass : List Int → Int × Int → Int → List Int
  | [], _, _ => []
  | [a], _, _ => [a]
  | a :: b :: rest, p, idx =>
    if a = p.1 ∧ b = p.2 then idx :: mergePass rest p idx
    else a :: mergePass (b :: rest) p idx

/-- One iteration of `encode`'s `while` loop: `none` when the loop stops
(fewer than two tokens, or the selected pair has no rule), otherwise the
token list after the merge pass. -/
def encodeStep (m : MergeDict) (ids : List Int) : Option (List Int) :=
  if 2 ≤ ids.length then
    match minByRank m (statKeys ids) with
    | none => none
    | some p =>
      match dget m p with
      | none => none
      | some r => some (mergePass ids p r)
  else none

theorem mergePass_length_le (ids : List Int) (p : Int × Int) (idx : Int) :
    (mergePass ids p idx).length ≤ ids.length := by
  induction ids, p, idx using mergePass.induct with
  | case1 p idx => simp [mergePass]
  | case2 a p idx => simp [mergePass]
  | case3 a b rest p idx h ih =>
    simp only [mergePass, if_pos h, List.length_cons]
    omega
  | case4 a b rest p idx h ih =>
    simp only [mergePass, if_neg h, List.length_cons]
    simp only [List.length_cons] at ih
    omega

theorem adjPairs_cons₂ (a b : Int) (rest : List Int) :
    adjPairs (a :: b :: rest) = (a, b) :: adjPairs (b :: rest) := rfl

theorem mergePass_length_lt (ids : List Int) (p : Int × Int) (idx : Int)
    (hp : p ∈ adjPairs ids) : (mergePass ids p idx).length < ids.length := by
  revert hp
  induction ids, p, idx using mergePass.induct with
  | case1 p idx => intro hp; simp [adjPairs] at hp
  | case2 a p idx => intro hp; simp [adjPairs, List.zip] at hp
  | case3 a b rest p idx h ih =>
    intro hp
    simp only [mergePass, if_pos h, List.length_cons]
    have := mergePass_length_le rest p idx
    omega
  | case4 a b rest p idx h ih =>
    intro hp
    simp only [mergePass, if_neg h, List.length_cons]
    rw [adjPairs_cons₂] at hp
    have hp' : p ∈ adjPairs (b :: rest) := by
      rcases List.mem_cons.1 hp with hp | hp
      · exfalso
        apply h
        rw [hp]
        exact ⟨rfl, rfl⟩
      · exact hp
    have := ih hp'
    simp only [List.length_cons] at this ⊢
    omega

theorem dedupFirst_subset {α : Type} [DecidableEq α] (seen l : List α) (a : α)
    (h : a ∈ dedupFirst seen l) : a ∈ l := by
  induction l generalizing seen with
  | nil => simp [dedupFirst] at h
  | cons b l ih =>
    simp only [dedupFirst] at h
    by_cases hb : b ∈ seen
    · rw [if_pos hb] at h
      exact List.mem_cons_of_mem _ (ih seen h)
    · rw [if_neg hb] at h
      rcases List.mem_cons.1 h with h | h
      · exact h ▸ List.mem_cons_self _ _
      · exact List.mem_cons_of_mem _ (ih (b :: seen) h)

theorem mem_dedupFirst {α : Type} [DecidableEq α] (seen l : List α) (a : α)
    (h : a ∈ l) : a ∈ seen ∨ a ∈ dedupFirst seen l := by
  induction l generalizing seen with
  | nil => simp at h
  | cons b l ih =>
    simp only [dedupFirst]
    by_cases hb : b ∈ seen
    · rw [if_pos hb]
      rcases List.mem_cons.1 h with rfl | h
      · exact Or.inl hb
      · exact ih seen h
    · rw [if_neg hb]
      rcases List.mem_cons.1 h with rfl | h
      · exact Or.inr (List.mem_cons_self _ _)
      · rcases ih (b :: seen) h with hs | hd
        · rcases List.mem_cons.1 hs with rfl | hs
          · exact Or.inr (List.mem_cons_self _ _)
          · exact Or.inl hs
        · exact Or.inr (List.mem_cons_of_mem _ hd)

theorem mem_statKeys_iff (ids : List Int) (p : Int × Int) :
    p ∈ statKeys ids ↔ p ∈ adjPairs ids := by
  constructor
  · exact dedupFirst_subset [] _ p
  · intro h
    rcases mem_dedupFirst [] (adjPairs ids) p h with hs | hd
    · simp at hs
    · exact hd

/-- `rankLt` is a strict order compatible with "none is infinity":
not below `b` and strictly below `b` from `c` means not below `c`. -/
theorem rankLt_trans_not (a b c : Option Int)
    (hab : rankLt a b = false) (hcb : rankLt c b = true) :
    rankLt a c = false := by
  cases a <;> cases b <;> cases c <;>
    simp [rankLt] at hab hcb ⊢ <;> omega

theorem rankLt_irrefl (a : Option Int) : rankLt a a = false := by
  cases a <;> simp [rankLt]

theorem minByRank_mem (m : MergeDict) (ps : List (Int × Int)) (p : Int × Int)
    (h : minByRank m ps = some p) : p ∈ ps := by
  cases ps with
  | nil => simp [minByRank] at h
  | cons q ps =>
    simp only [minByRank] at h
    have hv := Option.some_injective _ h
    have key : ∀ (l : List (Int × Int)) (acc : Int × Int),
        l.foldl (fun best q' => if rankLt (dget m q') (dget m best) then q' else best)
          acc ∈ acc :: l := by
      intro l
      induction l with
      | nil => simp
      | cons x l ih =>
        intro acc
        simp only [List.foldl_cons]
        by_cases hx : rankLt (dget m x) (dget m acc) = true
        · rw [if_pos hx]
          rcases List.mem_cons.1 (ih x) with h' | h'
          · rw [h']
            exact List.mem_cons_of_mem _ (List.mem_cons_self _ _)
          · exact List.mem_cons_of_mem _ (List.mem_cons_of_mem _ h')
        · rw [if_neg hx]
          rcases List.mem_cons.1 (ih acc) with h' | h'
          · rw [h']
            exact List.mem_cons_self _ _
          · exact List.mem_cons_of_mem _ (List.mem_cons_of_mem _ h')
    rw [← hv]
    exact key ps q

/-- `x` strictly below `a`, `x` not strictly below `R` ⟹ `a` not strictly
below `R` (rank order with `none` as infinity). -/
theorem rankLt_chain (x a R : Option Int)
    (h1 : rankLt x a = true) (h2 : rankLt x R = false) :
    rankLt a R = false := by
  cases x <;> cases a <;> cases R <;>
    simp [rankLt] at h1 h2 ⊢ <;> omega

/-- "Not strictly below" is transitive. -/
theorem rankLt_ge_trans (x a R : Option Int)
    (h1 : rankLt x a = false) (h2 : rankLt a R = false) :
    rankLt x R = false := by
  cases x <;> cases a <;> cases R <;>
    simp [rankLt] at h1 h2 ⊢ <;> omega

theorem minByRank_min (m : MergeDict) (ps : List (Int × Int)) (p : Int × Int)
    (h : minByRank m ps = some p) :
    ∀ q ∈ ps, rankLt (dget m q) (dget m p) = false := by
  cases ps with
  | nil => simp [minByRank] at h
  | cons q0 ps =>
    simp only [minByRank] at h
    have hv := Option.some_injective _ h
    have key : ∀ (l : List (Int × Int)) (acc : Int × Int),
        rankLt (dget m acc)
          (dget m (l.foldl
            (fun best q' => if rankLt (dget m q') (dget m best) then q' else best) acc))
          = false ∧
        ∀ q ∈ l, rankLt (dget m q)
          (dget m (l.foldl
            (fun best q' => if rankLt (dget m q') (dget m best) then q' else best) acc))
          = false := by
      intro l
      induction l with
      | nil =>
        intro acc
        exact ⟨rankLt_irrefl _, by simp⟩
      | cons x l ih =>
        intro acc
        simp only [List.foldl_cons]
        by_cases hx : rankLt (dget m x) (dget m acc) = true
        · rw [if_pos hx]
          obtain ⟨hA, hB⟩ := ih x
          refine ⟨rankLt_chain _ _ _ hx hA, ?_⟩
          intro q hq
          rcases List.mem_cons.1 hq with heq | hq'
          · rw [heq]; exact hA
          · exact hB q hq'
        · rw [if_neg hx]
          obtain ⟨hA, hB⟩ := ih acc
          refine ⟨hA, ?_⟩
          intro q hq
          rcases List.mem_cons.1 hq with heq | hq'
          · rw [heq]
            exact rankLt_ge_trans _ _ _ (Bool.eq_false_iff.2 hx) hA
          · exact hB q hq'
    intro q hq
    rw [← hv]
    rcases List.mem_cons.1 hq with heq | hq'
    · rw [heq]
      exact (key ps q0).1
    · exact (key ps q0).2 q hq'

/-- Inversion of one loop iteration: a successful step found an adjacent
pair with a rule and merged it. -/
theorem encodeStep_some (m : MergeDict) (ids out : List Int)
    (h : encodeStep m ids = some out) :
    2 ≤ ids.length ∧ ∃ p r, p ∈ adjPairs ids ∧ dget m p = some r ∧
      out = mergePass ids p r := by
  simp only [encodeStep] at h
  by_cases h2 : 2 ≤ ids.length
  · rw [if_pos h2] at h
    cases hmin : minByRank m (statKeys ids) with
    | none =>
      simp only [hmin] at h
      exact Option.noConfusion h
    | some p =>
      simp only [hmin] at h
      cases hr : dget m p with
      | none =>
        simp only [hr] at h
        exact Option.noConfusion h
      | some r =>
        simp only [hr] at h
        refine ⟨h2, p, r, ?_, hr, (Option.some_injective _ h).symm⟩
        exact (mem_statKeys_iff ids p).1 (minByRank_mem m _ p hmin)
  · rw [if_neg h2] at h
    simp at h

theorem encodeStep_length (m : MergeDict) (ids out : List Int)
    (h : encodeStep m ids = some out) : out.length < ids.length := by
  obtain ⟨-, p, r, hp, -, rfl⟩ := encodeStep_some m ids out h
  exact mergePass_length_lt ids p r hp

/-- The `while` loop of `BPEEncoder.encode`: iterate `encodeStep` until it
stops.  Terminates because every merge pass strictly shrinks the token
list. -/
def encodeLoop (m : MergeDict) (ids : List Int) : List Int :=
  match h : encodeStep m ids with
  | none => ids
  | some out => encodeLoop m out
termination_by ids.length
decreasing_by exact encodeStep_length m ids out h

/-- The same loop driven by explicit fuel: `encodeLoopN n` performs at most
`n` merge iterations and returns the tokens reached so far. -/
def encodeLoopN (m : MergeDict) : Nat → List Int → List Int
  | 0, ids => ids
  | n + 1, ids =>
    match encodeStep m ids with
    | none => ids
    | some out => encodeLoopN m n out

theorem encodeLoop_none (m : MergeDict) (ids : List Int)
    (h : encodeStep m ids = none) : encodeLoop m ids = ids := by
  rw [encodeLoop]
  split
  · rfl
  · rename_i out hstep
    rw [h] at hstep
    exact Option.noConfusion hstep

theorem encodeLoop_some (m : MergeDict) (ids out : List Int)
    (h : encodeStep m ids = some out) :
    encodeLoop m ids = encodeLoop m out := by
  rw [encodeLoop]
  split
  · rename_i hstep
    rw [h] at hstep
    exact Option.noConfusion hstep
  · rename_i out' hstep
    rw [h] at hstep
    rw [Option.some_injective _ hstep]

/-- Fuel one less than the token count always suffices: each iteration
strictly shrinks the list, and fewer than two tokens stop the loop. -/
theorem encodeLoopN_eq_encodeLoop (m : MergeDict) (n : Nat) (ids : List Int)
    (hn : ids.length ≤ n + 1) : encodeLoopN m n ids = encodeLoop m ids := by
  induction n generalizing ids with
  | zero =>
    cases hstep : encodeStep m ids with
    | none => rw [encodeLoopN, encodeLoop_none m ids hstep]
    | some out =>
      exfalso
      have := (encodeStep_some m ids out hstep).1
      omega
  | succ n ih =>
    simp only [encodeLoopN]
    cases hstep : encodeStep m ids with
    | none => rw [encodeLoop_none m ids hstep]
    | some out =>
      rw [encodeLoop_some m ids out hstep]
      have := encodeStep_length m ids out hstep
      exact ih out (by omega)


/-! ## UTF-8 (Python `str.encode("utf-8")` and
`bytes.decode("utf-8", errors="replace")`) -/

/-- A Unicode scalar value: what a Python `str` of encodable characters
holds (surrogates raise `UnicodeEncodeError` in `str.encode` and are
excluded). -/
def ValidScalar (c : Nat) : Prop := c < 0x110000 ∧ ¬(0xD800 ≤ c ∧ c ≤ 0xDFFF)

instance (c : Nat) : Decidable (ValidScalar c) := by
  unfold ValidScalar
  infer_instance

/-- The UTF-8 bytes of one scalar value (1–4 bytes). -/
def utf8EncodeChar (c : Nat) : List Nat :=
  if c < 0x80 then [c]
  else if c < 0x800 then [0xC0 + c / 64, 0x80 + c % 64]
  else if c < 0x10000 then
    [0xE0 + c / 4096, 0x80 + c / 64 % 64, 0x80 + c % 64]
  else
    [0xF0 + c / 262144, 0x80 + c / 4096 % 64, 0x80 + c / 64 % 64, 0x80 + c % 64]

/-- `text.encode("utf-8")` over the scalar values of the text. -/
def utf8Encode (cs : List Nat) : List Nat := (cs.map utf8EncodeChar).flatten

/-- Valid range for the first continuation byte of a three-byte sequence
(CPython's table: `E0: A0..BF`, `ED: 80..9F`, otherwise `80..BF`). -/
def cont1ok3 (b0 b1 : Nat) : Prop :=
  (b0 = 0xE0 ∧ 0xA0 ≤ b1 ∧ b1 < 0xC0) ∨
  (b0 = 0xED ∧ 0x80 ≤ b1 ∧ b1 < 0xA0) ∨
  (b0 ≠ 0xE0 ∧ b0 ≠ 0xED ∧ 0x80 ≤ b1 ∧ b1 < 0xC0)

instance (b0 b1 : Nat) : Decidable (cont1ok3 b0 b1) := by
  unfold cont1ok3
  infer_instance

/-- Valid range for the first continuation byte of a four-byte sequence
(CPython's table: `F0: 90..BF`, `F4: 80..8F`, otherwise `80..BF`). -/
def cont1ok4 (b0 b1 : Nat) : Prop :=
  (b0 = 0xF0 ∧ 0x90 ≤ b1 ∧ b1 < 0xC0) ∨
  (b0 = 0xF4 ∧ 0x80 ≤ b1 ∧ b1 < 0x90) ∨
  (b0 ≠ 0xF0 ∧ b0 ≠ 0xF4 ∧ 0x80 ≤ b1 ∧ b1 < 0xC0)

instance (b0 b1 : Nat) : Decidable (cont1ok4 b0 b1) := by
  unfold cont1ok4
  infer_instance

/-- `bytes.decode("utf-8", errors="replace")`, as scalar values: CPython's
decoder emits one U+FFFD per maximal subpart of an ill-formed sequence
(an invalid or missing continuation byte ends the subpart; the valid
prefix is consumed) and never fails. -/
def utf8DecodeReplace : List Nat → List Nat
  | [] => []
  | b0 :: rest =>
    if b0 < 0x80 then b0 :: utf8DecodeReplace rest
    else if b0 < 0xC2 then 0xFFFD :: utf8DecodeReplace rest
    else if b0 < 0xE0 then
      match hr : rest with
      | [] => [0xFFFD]
      | b1 :: r2 =>
        if 0x80 ≤ b1 ∧ b1 < 0xC0 then
          ((b0 - 0xC0) * 64 + (b1 - 0x80)) :: utf8DecodeReplace r2
        else 0xFFFD :: utf8DecodeReplace rest
    else if b0 < 0xF0 then
      match hr : rest with
      | [] => [0xFFFD]
      | b1 :: r2 =>
        if cont1ok3 b0 b1 then
          match hr2 : r2 with
          | [] => [0xFFFD]
          | b2 :: r3 =>
            if 0x80 ≤ b2 ∧ b2 < 0xC0 then
              ((b0 - 0xE0) * 4096 + (b1 - 0x80) * 64 + (b2 - 0x80)) ::
                utf8DecodeReplace r3
            else 0xFFFD :: utf8DecodeReplace r2
        else 0xFFFD :: utf8DecodeReplace rest
    else if b0 < 0xF5 then
      match hr : rest with
      | [] => [0xFFFD]
      | b1 :: r2 =>
        if cont1ok4 b0 b1 then
          match hr2 : r2 with
          | [] => [0xFFFD]
          | b2 :: r3 =>
            if 0x80 ≤ b2 ∧ b2 < 0xC0 then
              match hr3 : r3 with
              | [] => [0xFFFD]
              | b3 :: r4 =>
                if 0x80 ≤ b3 ∧ b3 < 0xC0 then
                  ((b0 - 0xF0) * 262144 + (b1 - 0x80) * 4096 +
                    (b2 - 0x80) * 64 + (b3 - 0x80)) :: utf8DecodeReplace r4
                else 0xFFFD :: utf8DecodeReplace r3
            else 0xFFFD :: utf8DecodeReplace r2
        else 0xFFFD :: utf8DecodeReplace rest
    else 0xFFFD :: utf8DecodeReplace rest
termination_by l => l.length
decreasing_by all_goals (subst_vars; simp_all [List.length_cons]; try omega)

theorem utf8DecodeReplace_nil : utf8DecodeReplace [] = [] := by
  rw [utf8DecodeReplace.eq_def]

theorem utf8DecodeReplace_ascii (b0 : Nat) (bs : List Nat) (h : b0 < 0x80) :
    utf8DecodeReplace (b0 :: bs) = b0 :: utf8DecodeReplace bs := by
  rw [utf8DecodeReplace.eq_def]
  dsimp only
  rw [if_pos h]

theorem utf8DecodeReplace_two (b0 b1 : Nat) (bs : List Nat)
    (h0 : 0xC2 ≤ b0) (h0' : b0 < 0xE0) (hc : 0x80 ≤ b1 ∧ b1 < 0xC0) :
    utf8DecodeReplace (b0 :: b1 :: bs) =
      ((b0 - 0xC0) * 64 + (b1 - 0x80)) :: utf8DecodeReplace bs := by
  rw [utf8DecodeReplace.eq_def]
  dsimp only
  rw [if_neg (by omega), if_neg (by omega), if_pos (by omega), if_pos hc]

theorem utf8DecodeReplace_three (b0 b1 b2 : Nat) (bs : List Nat)
    (h0 : 0xE0 ≤ b0) (h0' : b0 < 0xF0) (hc1 : cont1ok3 b0 b1)
    (hc2 : 0x80 ≤ b2 ∧ b2 < 0xC0) :
    utf8DecodeReplace (b0 :: b1 :: b2 :: bs) =
      ((b0 - 0xE0) * 4096 + (b1 - 0x80) * 64 + (b2 - 0x80)) ::
        utf8DecodeReplace bs := by
  rw [utf8DecodeReplace.eq_def]
  dsimp only
  rw [if_neg (by omega), if_neg (by omega), if_neg (by omega), if_pos (by omega),
    if_pos hc1, if_pos hc2]

theorem utf8DecodeReplace_four (b0 b1 b2 b3 : Nat) (bs : List Nat)
    (h0 : 0xF0 ≤ b0) (h0' : b0 < 0xF5) (hc1 : cont1ok4 b0 b1)
    (hc2 : 0x80 ≤ b2 ∧ b2 < 0xC0) (hc3 : 0x80 ≤ b3 ∧ b3 < 0xC0) :
    utf8DecodeReplace (b0 :: b1 :: b2 :: b3 :: bs) =
      ((b0 - 0xF0) * 262144 + (b1 - 0x80) * 4096 + (b2 - 0x80) * 64 +
        (b3 - 0x80)) :: utf8DecodeReplace bs := by
  rw [utf8DecodeReplace.eq_def]
  dsimp only
  rw [if_neg (by omega), if_neg (by omega), if_neg (by omega), if_neg (by omega),
    if_pos (by omega), if_pos hc1, if_pos hc2, if_pos hc3]

/-- Every byte emitted for a valid scalar is a real byte (< 256). -/
theorem utf8EncodeChar_lt_256 (c : Nat) (hc : ValidScalar c) :
    ∀ b ∈ utf8EncodeChar c, b < 256 := by
  obtain ⟨h1, -⟩ := hc
  intro b hb
  unfold utf8EncodeChar at hb
  by_cases hlt : c < 0x80
  · rw [if_pos hlt] at hb
    simp at hb
    omega
  · rw [if_neg hlt] at hb
    by_cases h2 : c < 0x800
    · rw [if_pos h2] at hb
      simp at hb
      rcases hb with rfl | rfl <;> omega
    · rw [if_neg h2] at hb
      by_cases h3 : c < 0x10000
      · rw [if_pos h3] at hb
        simp at hb
        rcases hb with rfl | rfl | rfl <;> omega
      · rw [if_neg h3] at hb
        simp at hb
        rcases hb with rfl | rfl | rfl | rfl <;> omega

set_option maxRecDepth 4000 in
/-- Key lemma: decoding the UTF-8 bytes of one valid scalar prepended to
anything yields that scalar prepended to the decode of the rest. -/
theorem utf8DecodeReplace_encodeChar (c : Nat) (hc : ValidScalar c)
    (bs : List Nat) :
    utf8DecodeReplace (utf8EncodeChar c ++ bs) = c :: utf8DecodeReplace bs := by
  obtain ⟨h1, h2⟩ := hc
  unfold utf8EncodeChar
  by_cases ha : c < 0x80
  · rw [if_pos ha]
    rw [List.cons_append, List.nil_append]
    rw [utf8DecodeReplace_ascii c bs ha]
  · rw [if_neg ha]
    by_cases hb : c < 0x800
    · rw [if_pos hb]
      rw [List.cons_append, List.cons_append, List.nil_append]
      rw [utf8DecodeReplace_two _ _ bs (by omega) (by omega) (by omega)]
      congr 1
      omega
    · rw [if_neg hb]
      by_cases h3 : c < 0x10000
      · rw [if_pos h3]
        rw [List.cons_append, List.cons_append, List.cons_append, List.nil_append]
        rw [utf8DecodeReplace_three _ _ _ bs (by omega) (by omega) ?_ (by omega)]
        · congr 1
          omega
        · unfold cont1ok3
          by_cases he0 : 0xE0 + c / 4096 = 0xE0
          · left
            refine ⟨he0, ?_, by omega⟩
            omega
          · by_cases hed : 0xE0 + c / 4096 = 0xED
            · right; left
              refine ⟨hed, by omega, ?_⟩
              omega
            · right; right
              exact ⟨he0, hed, by omega, by omega⟩
      · rw [if_neg h3]
        rw [List.cons_append, List.cons_append, List.cons_append,
          List.cons_append, List.nil_append]
        rw [utf8DecodeReplace_four _ _ _ _ bs (by omega) (by omega) ?_
          (by omega) (by omega)]
        · congr 1
          omega
        · unfold cont1ok4
          by_cases hf0 : 0xF0 + c / 262144 = 0xF0
          · left
            refine ⟨hf0, ?_, by omega⟩
            omega
          · by_cases hf4 : 0xF0 + c / 262144 = 0xF4
            · right; left
              refine ⟨hf4, by omega, ?_⟩
              omega
            · right; right
              exact ⟨hf0, hf4, by omega, by omega⟩

/-- `decode(encode(text))` at the byte level: decoding the UTF-8 encoding
of a list of valid scalars is the identity. -/
theorem utf8DecodeReplace_utf8Encode (cs : List Nat)
    (h : ∀ c ∈ cs, ValidScalar c) :
    utf8DecodeReplace (utf8Encode cs) = cs := by
  induction cs with
  | nil => exact utf8DecodeReplace_nil
  | cons c cs ih =>
    have hcs : utf8Encode (c :: cs) = utf8EncodeChar c ++ utf8Encode cs := by
      simp [utf8Encode]
    rw [hcs, utf8DecodeReplace_encodeChar c (h c (List.mem_cons_self _ _))]
    rw [ih (fun c' hc' => h c' (List.mem_cons_of_mem _ hc'))]

/-! ## `encode` and `decode` -/

/-- `BPEEncoder.encode`: UTF-8 bytes of the text (each byte a token ID in
0..255), then the merge loop. -/
def encode (m : MergeDict) (text : List Nat) : List Int :=
  encodeLoop m ((utf8Encode text).map (fun (b : Nat) => (b : Int)))

/-- `b"".join(self._vocab[idx] for idx in ids)`: concatenate the byte
sequences of the tokens; `none` models the `KeyError` on an unknown ID. -/
def flatBytes (V : Vocab) : List Int → Option (List Nat)
  | [] => some []
  | i :: ids =>
    match dget V i, flatBytes V ids with
    | some b, some bs => some (b ++ bs)
    | _, _ => none

/-- `BPEEncoder.decode`: look every ID up in the vocabulary built at
construction time, concatenate the byte sequences, then decode the whole
as UTF-8 with `errors="replace"`. -/
def decode (m : MergeDict) (ids : List Int) : Option (List Nat) :=
  match buildVocab m with
  | none => none
  | some V =>
    match flatBytes V ids with
    | none => none
    | some bs => some (utf8DecodeReplace bs)

theorem flatBytes_none (V : Vocab) (ids : List Int) (u : Int)
    (hu : u ∈ ids) (hnone : dget V u = none) : flatBytes V ids = none := by
  induction ids with
  | nil => simp at hu
  | cons i ids ih =>
    rcases List.mem_cons.1 hu with rfl | hu'
    · simp only [flatBytes, hnone]
    · simp only [flatBytes, ih hu']
      cases dget V i <;> rfl

theorem flatBytes_isSome (V : Vocab) (ids : List Int)
    (h : ∀ i ∈ ids, (dget V i).isSome) : ∃ bs, flatBytes V ids = some bs := by
  induction ids with
  | nil => exact ⟨[], rfl⟩
  | cons i ids ih =>
    obtain ⟨b, hb⟩ := Option.isSome_iff_exists.1 (h i (List.mem_cons_self _ _))
    obtain ⟨bs, hbs⟩ := ih (fun i' hi' => h i' (List.mem_cons_of_mem _ hi'))
    exact ⟨b ++ bs, by simp only [flatBytes, hb, hbs]⟩

theorem flatBytes_cons (V : Vocab) (i : Int) (ids : List Int) :
    flatBytes V (i :: ids) = match dget V i, flatBytes V ids with
      | some b, some bs => some (b ++ bs)
      | _, _ => none := rfl

/-- A merge pass preserves the flattened byte string whenever the
vocabulary entry of the merged pair's result is the concatenation of its
operands' entries. -/
theorem flatBytes_mergePass (V : Vocab) (x y r : Int) (vx vy : List Nat)
    (hx : dget V x = some vx) (hy : dget V y = some vy)
    (hr : dget V r = some (vx ++ vy)) :
    ∀ (ids : List Int) (bs : List Nat), flatBytes V ids = some bs →
      flatBytes V (mergePass ids (x, y) r) = some bs := by
  intro ids
  have main : ∀ (l : List Int) (p : Int × Int) (q : Int), p = (x, y) → q = r →
      ∀ bs : List Nat, flatBytes V l = some bs →
        flatBytes V (mergePass l p q) = some bs := by
    intro l p q
    induction l, p, q using mergePass.induct with
    | case1 p q => intro _ _ bs h; exact h
    | case2 a p q => intro _ _ bs h; exact h
    | case3 a b rest p q h ih =>
      rintro rfl rfl bs hbs
      obtain ⟨rfl, rfl⟩ : a = x ∧ b = y := h
      rw [flatBytes_cons, hx] at hbs
      rw [flatBytes_cons, hy] at hbs
      cases hrest : flatBytes V rest with
      | none => rw [hrest] at hbs; simp at hbs
      | some brest =>
        rw [hrest] at hbs
        simp only [] at hbs
        have hbs' := Option.some_injective _ hbs
        rw [mergePass, if_pos ⟨rfl, rfl⟩]
        rw [flatBytes_cons, hr, ih rfl rfl brest hrest]
        rw [← hbs']
        simp [List.append_assoc]
    | case4 a b rest p q h ih =>
      rintro rfl rfl bs hbs
      rw [mergePass, if_neg h]
      rw [flatBytes_cons] at hbs
      rw [flatBytes_cons]
      cases ha : dget V a with
      | none => rw [ha] at hbs; simp at hbs
      | some va =>
        rw [ha] at hbs
        cases hrest : flatBytes V (b :: rest) with
        | none => rw [hrest] at hbs; simp at hbs
        | some brest =>
          rw [hrest] at hbs
          rw [ih rfl rfl brest hrest]
          exact hbs
  exact main ids (x, y) r rfl rfl


/-- The whole merge loop preserves the flattened byte string, given that
every rule's vocabulary entry is the concatenation of its operands'. -/
theorem encodeLoop_flatBytes (m : MergeDict) (V : Vocab)
    (H : ∀ e ∈ m, ∃ v0 v1, dget V e.1.1 = some v0 ∧ dget V e.1.2 = some v1 ∧
      dget V e.2 = some (v0 ++ v1)) (ids : List Int) (bs : List Nat)
    (hbs : flatBytes V ids = some bs) :
    flatBytes V (encodeLoop m ids) = some bs := by
  cases hstep : encodeStep m ids with
  | none =>
    rw [encodeLoop_none m ids hstep]
    exact hbs
  | some out =>
    rw [encodeLoop_some m ids out hstep]
    obtain ⟨h2, p, r, hp, hr, hout⟩ := encodeStep_some m ids out hstep
    obtain ⟨px, py⟩ := p
    obtain ⟨v0, v1, hv0, hv1, hvr⟩ := H ((px, py), r) (dget_mem hr)
    have hlen := encodeStep_length m ids out hstep
    subst hout
    exact encodeLoop_flatBytes m V H (mergePass ids (px, py) r) bs
      (flatBytes_mergePass V px py r v0 v1 hv0 hv1 hvr ids bs hbs)
termination_by ids.length
decreasing_by exact hlen

/-- An operand of a merge rule refers to an ID defined before the rule:
a base byte (0..255) or the result of a rule with a smaller result ID. -/
def opEarlier (m : MergeDict) (r p : Int) : Prop :=
  (0 ≤ p ∧ p < 256) ∨ ∃ e' ∈ m, e'.2 = p ∧ e'.2 < r

instance (m : MergeDict) (r p : Int) : Decidable (opEarlier m r p) := by
  unfold opEarlier
  infer_instance

/-- The spec's MergeTable invariants (§3): every result exceeds 255,
results are unique across rules, and every rule references only IDs
defined before it (base bytes or earlier results). -/
def goodMergeTable (m : MergeDict) : Prop :=
  (∀ e ∈ m, (255 : Int) < e.2) ∧ (m.map (fun e => e.2)).Nodup ∧
  (∀ e ∈ m, opEarlier m e.2 e.1.1 ∧ opEarlier m e.2 e.1.2)

instance (m : MergeDict) : Decidable (goodMergeTable m) := by
  unfold goodMergeTable
  infer_instance

/-- Under the MergeTable invariants, `_build_vocab` succeeds, keeps every
base byte's entry, and gives every rule's result the concatenation of its
operands' byte strings. -/
theorem buildVocab_good (m : MergeDict) (hm : goodMergeTable m) :
    ∃ V, buildVocab m = some V ∧
      (∀ b : Nat, b < 256 → dget V (b : Int) = some [b]) ∧
      (∀ e ∈ m, ∃ v0 v1, dget V e.1.1 = some v0 ∧ dget V e.1.2 = some v1 ∧
        dget V e.2 = some (v0 ++ v1)) := by
  obtain ⟨hres, hnodup, href⟩ := hm
  have hperm := sortMerges_perm m
  have hsort := sortMerges_sorted m
  have hmem : ∀ e, e ∈ sortMerges m ↔ e ∈ m := fun e => hperm.mem_iff
  have hnods : ((sortMerges m).map (fun e => e.2)).Nodup :=
    ((hperm.map (fun e => e.2)).nodup_iff).2 hnodup
  have hne : (sortMerges m).Pairwise (fun a b => a.2 ≠ b.2) :=
    List.pairwise_map.1 hnods
  have hlt : (sortMerges m).Pairwise (fun a b => a.2 < b.2) :=
    (hsort.and hne).imp (fun h => lt_of_le_of_ne h.1 h.2)
  have hbase : ∀ p : Int, 0 ≤ p ∧ p < 256 → dget baseVocab p = some [p.toNat] := by
    rintro p ⟨hp0, hp1⟩
    have := dget_baseVocab p.toNat (by omega)
    rwa [Int.toNat_of_nonneg hp0] at this
  have hops : ∀ e ∈ sortMerges m,
      ((dget baseVocab e.1.1).isSome ∨
        ∃ e' ∈ sortMerges m, e'.2 = e.1.1 ∧ e'.2 < e.2) ∧
      ((dget baseVocab e.1.2).isSome ∨
        ∃ e' ∈ sortMerges m, e'.2 = e.1.2 ∧ e'.2 < e.2) := by
    intro e he
    have he' := (hmem e).1 he
    obtain ⟨h1, h2⟩ := href e he'
    constructor
    · rcases h1 with hb | ⟨e', he'', hp, hl⟩
      · left
        rw [hbase _ hb]
        rfl
      · exact Or.inr ⟨e', (hmem e').2 he'', hp, hl⟩
    · rcases h2 with hb | ⟨e', he'', hp, hl⟩
      · left
        rw [hbase _ hb]
        rfl
      · exact Or.inr ⟨e', (hmem e').2 he'', hp, hl⟩
  obtain ⟨V, hV⟩ := buildVocabAux_some (sortMerges m) baseVocab hsort hops
  refine ⟨V, hV, ?_, ?_⟩
  · intro b hb
    refine buildVocabAux_preserve (sortMerges m) baseVocab V (b : Int) [b] hV
      (dget_baseVocab b hb) ?_
    intro e he
    have := hres e ((hmem e).1 he)
    have hble : (b : Int) < 256 := by exact_mod_cast hb
    omega
  · intro e he
    have hfresh : ∀ e' ∈ sortMerges m, dget baseVocab e'.2 = none := by
      intro e' he'
      apply dget_baseVocab_none
      have := hres e' ((hmem e').1 he')
      omega
    exact buildVocabAux_entries (sortMerges m) baseVocab V hlt hfresh hV e
      ((hmem e).2 he)

theorem utf8Encode_lt_256 (text : List Nat) (h : ∀ c ∈ text, ValidScalar c) :
    ∀ b ∈ utf8Encode text, b < 256 := by
  intro b hb
  unfold utf8Encode at hb
  rw [List.mem_flatten] at hb
  obtain ⟨l, hl, hbl⟩ := hb
  obtain ⟨c, hc, rfl⟩ := List.mem_map.1 hl
  exact utf8EncodeChar_lt_256 c (h c hc) b hbl

/-- Flattening the raw byte tokens of a text through a vocabulary whose
base entries are intact reproduces the bytes. -/
theorem flatBytes_base (V : Vocab) (bs : List Nat)
    (h : ∀ b ∈ bs, dget V (b : Int) = some [b]) :
    flatBytes V (bs.map (fun (b : Nat) => (b : Int))) = some bs := by
  induction bs with
  | nil => rfl
  | cons b bs ih =>
    rw [List.map_cons, flatBytes_cons, h b (List.mem_cons_self _ _),
      ih (fun b' hb' => h b' (List.mem_cons_of_mem _ hb'))]
    rfl

/-- **C1**: For every MergeTable satisfying the spec's invariants (§3:
results all exceed 255 and are unique, rules reference only IDs defined
before them — base bytes 0..255 or earlier results), and every text of
valid Unicode scalar values, `decode(encode(text)) == text`. -/
theorem c1_round_trip (m : MergeDict) (hm : goodMergeTable m)
    (text : List Nat) (ht : ∀ c ∈ text, ValidScalar c) :
    decode m (encode m text) = some text := by
  obtain ⟨V, hV, hbase, hrules⟩ := buildVocab_good m hm
  have hbytes : ∀ b ∈ utf8Encode text, b < 256 := utf8Encode_lt_256 text ht
  have hflat0 : flatBytes V ((utf8Encode text).map (fun (b : Nat) => (b : Int)))
      = some (utf8Encode text) :=
    flatBytes_base V _ (fun b hb => hbase b (hbytes b hb))
  have hflat : flatBytes V (encode m text) = some (utf8Encode text) :=
    encodeLoop_flatBytes m V hrules _ _ hflat0
  simp only [decode, hV, hflat]
  rw [utf8DecodeReplace_utf8Encode text ht]

/-- Witness for C1 at the spec's concrete scenario (§8): the table
`{(104,105): 256}` (`"hi"` → `[256]`) and the text `"hi"`. -/
theorem c1_round_trip_witness :
    decode [((104, 105), 256)] (encode [((104, 105), 256)] [104, 105])
      = some [104, 105] :=
  c1_round_trip [((104, 105), 256)] (by decide) [104, 105] (by decide)

theorem statKeys_cons₂ (a b : Int) (rest : List Int) :
    statKeys (a :: b :: rest) =
      (a, b) :: dedupFirst [(a, b)] (adjPairs (b :: rest)) := by
  rw [statKeys, adjPairs_cons₂, dedupFirst]
  rw [if_neg (by simp)]

theorem minByRank_isSome (m : MergeDict) (ids : List Int)
    (h2 : 2 ≤ ids.length) : ∃ p, minByRank m (statKeys ids) = some p := by
  match ids, h2 with
  | a :: b :: rest, _ =>
    rw [statKeys_cons₂]
    exact ⟨_, rfl⟩

/-- **C3**: with at least two tokens, one pass of the encode loop: if no
adjacent pair has a rule the loop stops and returns the sequence
unchanged; otherwise some adjacent pair with a rule of minimal result is
selected and every non-overlapping occurrence of it is replaced by the
rule's result in one left-to-right scan (`mergePass`), and the loop
continues on that sequence. -/
theorem c3_greedy_step (m : MergeDict) (ids : List Int) (h2 : 2 ≤ ids.length) :
    ((∀ q ∈ adjPairs ids, dget m q = none) → encodeLoop m ids = ids) ∧
    (∀ p r, p ∈ adjPairs ids → dget m p = some r →
      ∃ p' r', p' ∈ adjPairs ids ∧ dget m p' = some r' ∧
        (∀ q r'', q ∈ adjPairs ids → dget m q = some r'' → r' ≤ r'') ∧
        encodeLoop m ids = encodeLoop m (mergePass ids p' r')) := by
  obtain ⟨p₀, hmin⟩ := minByRank_isSome m ids h2
  have hp₀ : p₀ ∈ adjPairs ids :=
    (mem_statKeys_iff ids p₀).1 (minByRank_mem m _ p₀ hmin)
  cases hr : dget m p₀ with
  | none =>
    have hstep : encodeStep m ids = none := by
      simp only [encodeStep, if_pos h2, hmin, hr]
    constructor
    · intro _
      exact encodeLoop_none m ids hstep
    · intro p r hp hpr
      exfalso
      have := minByRank_min m _ p₀ hmin p ((mem_statKeys_iff ids p).2 hp)
      rw [hpr, hr] at this
      simp [rankLt] at this
  | some r₀ =>
    have hstep : encodeStep m ids = some (mergePass ids p₀ r₀) := by
      simp only [encodeStep, if_pos h2, hmin, hr]
    constructor
    · intro hall
      exact absurd hr (by rw [hall p₀ hp₀]; exact fun h => Option.noConfusion h)
    · intro p r hp hpr
      refine ⟨p₀, r₀, hp₀, hr, ?_, encodeLoop_some m ids _ hstep⟩
      intro q r'' hq hq''
      have := minByRank_min m _ p₀ hmin q ((mem_statKeys_iff ids q).2 hq)
      rw [hq'', hr] at this
      simp [rankLt] at this
      exact this

/-- Witness for C3 at `m = [((104,105),256)]`, `ids = [104,105,104,105]`:
both conjuncts instantiated (the second at the pair `(104,105)`). -/
theorem c3_greedy_step_witness :
    ((∀ q ∈ adjPairs [104, 105, 104, 105], dget ([((104, 105), 256)] : MergeDict) q = none) →
      encodeLoop [((104, 105), 256)] [104, 105, 104, 105] = [104, 105, 104, 105]) ∧
    (∀ p r, p ∈ adjPairs [104, 105, 104, 105] →
      dget ([((104, 105), 256)] : MergeDict) p = some r →
      ∃ p' r', p' ∈ adjPairs [104, 105, 104, 105] ∧
        dget ([((104, 105), 256)] : MergeDict) p' = some r' ∧
        (∀ q r'', q ∈ adjPairs [104, 105, 104, 105] →
          dget ([((104, 105), 256)] : MergeDict) q = some r'' → r' ≤ r'') ∧
        encodeLoop [((104, 105), 256)] [104, 105, 104, 105] =
          encodeLoop [((104, 105), 256)] (mergePass [104, 105, 104, 105] p' r')) :=
  c3_greedy_step [((104, 105), 256)] [104, 105, 104, 105] (by decide)

/-- **C10**: the merge loop terminates: a selected pair always occurs in
the sequence, so each pass strictly decreases the token count (first
conjunct), and therefore the loop reaches its result within
`len(utf8(text)) - 1` iterations: running the loop with that much fuel
already yields `encode`'s result (second conjunct). -/
theorem c10_termination (m : MergeDict) (text : List Nat) :
    (∀ (ids : List Int) (p : Int × Int) (r : Int), p ∈ adjPairs ids →
      (mergePass ids p r).length < ids.length) ∧
    encode m text =
      encodeLoopN m ((utf8Encode text).length - 1)
        ((utf8Encode text).map (fun (b : Nat) => (b : Int))) := by
  constructor
  · exact fun ids p r hp => mergePass_length_lt ids p r hp
  · rw [encode, encodeLoopN_eq_encodeLoop]
    rw [List.length_map]
    omega

/-- Witness for C10 at the table `{(104,105): 256}` and the text `"hihi"`
(scalars `[104,105,104,105]`). -/
theorem c10_termination_witness :
    (∀ (ids : List Int) (p : Int × Int) (r : Int), p ∈ adjPairs ids →
      (mergePass ids p r).length < ids.length) ∧
    encode [((104, 105), 256)] [104, 105, 104, 105] =
      encodeLoopN [((104, 105), 256)]
        ((utf8Encode [104, 105, 104, 105]).length - 1)
        ((utf8Encode [104, 105, 104, 105]).map (fun (b : Nat) => (b : Int))) :=
  c10_termination [((104, 105), 256)] [104, 105, 104, 105]

/-- **C9**: `encode("") == []`; on a constructible encoder
`decode([]) == ""`; and a single-byte text encodes to exactly that byte's
ID. -/
theorem c9_empty_and_single (m : MergeDict) :
    encode m [] = [] ∧
    ((buildVocab m).isSome → decode m [] = some []) ∧
    (∀ c : Nat, c < 128 → encode m [c] = [(c : Int)]) := by
  refine ⟨?_, ?_, ?_⟩
  · rw [encode]
    have : utf8Encode [] = [] := rfl
    rw [this, List.map_nil, encodeLoop_none]
    rw [encodeStep, if_neg (by simp)]
  · intro hb
    obtain ⟨V, hV⟩ := Option.isSome_iff_exists.1 hb
    simp only [decode, hV, flatBytes, utf8DecodeReplace_nil]
  · intro c hc
    rw [encode]
    have henc : utf8Encode [c] = [c] := by
      simp [utf8Encode, utf8EncodeChar, if_pos hc]
    rw [henc, List.map_cons, List.map_nil, encodeLoop_none]
    rw [encodeStep, if_neg (by simp)]

/-- Witness for C9 at the table `{(104,105): 256}` and the byte 104. -/
theorem c9_empty_and_single_witness :
    encode [((104, 105), 256)] [] = [] ∧
    decode [((104, 105), 256)] [] = some [] ∧
    encode [((104, 105), 256)] [104] = [(104 : Int)] := by
  refine ⟨(c9_empty_and_single [((104, 105), 256)]).1,
    (c9_empty_and_single [((104, 105), 256)]).2.1 (by decide),
    (c9_empty_and_single [((104, 105), 256)]).2.2 104 (by decide)⟩

theorem dget_baseVocab_int (p : Int) (hp : 0 ≤ p ∧ p < 256) :
    dget baseVocab p = some [p.toNat] := by
  have := dget_baseVocab p.toNat (by omega)
  rwa [Int.toNat_of_nonneg hp.1] at this

/-- **C4**: the vocabulary built from a MergeTable (satisfying the spec's
§3 invariants) maps every id 0..255 to the single byte `id` and every
rule's result to the concatenation of its operands' byte strings (rules
processed in ascending result order); and the build is deterministic, so
building twice yields identical mappings (in this pure embedding the last
conjunct is definitional). -/
theorem c4_vocab (m : MergeDict) (hm : goodMergeTable m) :
    ∃ V, buildVocab m = some V ∧
      (∀ b : Nat, b < 256 → dget V (b : Int) = some [b]) ∧
      (∀ e ∈ m, ∃ v0 v1, dget V e.1.1 = some v0 ∧ dget V e.1.2 = some v1 ∧
        dget V e.2 = some (v0 ++ v1)) ∧
      buildVocab m = buildVocab m := by
  obtain ⟨V, hV, hbase, hrules⟩ := buildVocab_good m hm
  exact ⟨V, hV, hbase, hrules, rfl⟩

/-- Witness for C4 at the table `{(104,105): 256}`. -/
theorem c4_vocab_witness :
    ∃ V, buildVocab [((104, 105), 256)] = some V ∧
      (∀ b : Nat, b < 256 → dget V (b : Int) = some [b]) ∧
      (∀ e ∈ ([((104, 105), 256)] : MergeDict), ∃ v0 v1,
        dget V e.1.1 = some v0 ∧ dget V e.1.2 = some v1 ∧
        dget V e.2 = some (v0 ++ v1)) ∧
      buildVocab [((104, 105), 256)] = buildVocab [((104, 105), 256)] :=
  c4_vocab [((104, 105), 256)] (by decide)

/-- **C5**: decoding any ID list containing an ID with no vocabulary
entry (not a base byte 0..255 and not any rule's result) surfaces an
error (`none`, the embedded `KeyError`) instead of dropping the ID or
producing output. -/
theorem c5_unknown_token (m : MergeDict) (hb : (buildVocab m).isSome)
    (u : Int) (hu : ¬(0 ≤ u ∧ u < 256)) (hur : ∀ e ∈ m, e.2 ≠ u)
    (ids : List Int) (hmem : u ∈ ids) : decode m ids = none := by
  obtain ⟨V, hV⟩ := Option.isSome_iff_exists.1 hb
  have hnone : dget V u = none := by
    have h1 : dget baseVocab u = none := dget_baseVocab_none u hu
    have h2 : ∀ e ∈ sortMerges m, e.2 ≠ u :=
      fun e he => hur e ((sortMerges_perm m).mem_iff.1 he)
    exact buildVocabAux_none (sortMerges m) baseVocab V u hV h1 h2
  simp only [decode, hV, flatBytes_none V ids u hmem hnone]

/-- Witness for C5: decoding `[999]` with the table `{(104,105): 256}`
fails. -/
theorem c5_unknown_token_witness :
    decode [((104, 105), 256)] [999] = none :=
  c5_unknown_token [((104, 105), 256)] (by decide) 999 (by decide)
    (by decide) [999] (by decide)

/-- **C6**: for IDs that all have vocabulary entries, decode never fails:
it concatenates all of the tokens' byte strings first and interprets the
whole as UTF-8 with replacement-character substitution
(concatenate-then-decode; `utf8DecodeReplace` is total, so the UTF-8
stage cannot fail on malformed bytes). -/
theorem c6_graceful_decode (m : MergeDict) (hb : (buildVocab m).isSome)
    (ids : List Int)
    (hcov : ∀ i ∈ ids, (0 ≤ i ∧ i < 256) ∨ ∃ e ∈ m, e.2 = i) :
    ∃ V bs, buildVocab m = some V ∧ flatBytes V ids = some bs ∧
      decode m ids = some (utf8DecodeReplace bs) := by
  obtain ⟨V, hV⟩ := Option.isSome_iff_exists.1 hb
  have hsome : ∀ i ∈ ids, (dget V i).isSome := by
    intro i hi
    rcases hcov i hi with hbase | ⟨e, he, heq⟩
    · have h0 : (dget baseVocab i).isSome := by
        rw [dget_baseVocab_int i hbase]
        rfl
      exact buildVocabAux_isSome_preserve (sortMerges m) baseVocab V i hV h0
    · rw [← heq]
      exact buildVocabAux_result_isSome (sortMerges m) baseVocab V hV e
        ((sortMerges_perm m).mem_iff.2 he)
  obtain ⟨bs, hbs⟩ := flatBytes_isSome V ids hsome
  exact ⟨V, bs, hV, hbs, by simp only [decode, hV, hbs]⟩

/-- Witness for C6: the table `{(224,164): 256}` gives token 256 a byte
string (`E0 A4`) that is invalid UTF-8 alone; decoding `[256, 165]`
succeeds by concatenating first. -/
theorem c6_graceful_decode_witness :
    ∃ V bs, buildVocab [((224, 164), 256)] = some V ∧
      flatBytes V [256, 165] = some bs ∧
      decode [((224, 164), 256)] [256, 165] =
        some (utf8DecodeReplace bs) :=
  c6_graceful_decode [((224, 164), 256)] (by decide) [256, 165] (by decide)

/-! ## Persistence (`save`, `from_file`)

Keys of the JSON `merges` mapping are modelled as `List Char`; Python's
`int(...)` is `pyInt?` (sign, decimal digits, surrounding whitespace;
underscore separators and non-ASCII digits are not modelled), and
`key.split(',')` is `splitOnChar ','`. -/

def isSpaceCh (c : Char) : Bool := decide (c.toNat = 32 ∨ (9 ≤ c.toNat ∧ c.toNat ≤ 13))

def isDigitCh (c : Char) : Bool := decide (48 ≤ c.toNat ∧ c.toNat ≤ 57)

/-- `str.strip()` as `int()` applies it: drop leading and trailing
whitespace. -/
def trimChars (cs : List Char) : List Char :=
  ((cs.dropWhile isSpaceCh).reverse.dropWhile isSpaceCh).reverse

/-- The value of a nonempty all-digit string. -/
def digitsVal? (cs : List Char) : Option Nat :=
  if cs ≠ [] ∧ cs.all isDigitCh = true then
    some (cs.foldl (fun a c => a * 10 + (c.toNat - 48)) 0)
  else none

/-- Python `int(s)`: optional sign after stripping whitespace, then one
or more decimal digits; `none` models `ValueError`. -/
def pyInt? (s : List Char) : Option Int :=
  match trimChars s with
  | [] => none
  | c :: rest =>
    if c = '-' then (digitsVal? rest).map (fun (n : Nat) => -(n : Int))
    else if c = '+' then (digitsVal? rest).map (fun (n : Nat) => (n : Int))
    else (digitsVal? (c :: rest)).map (fun (n : Nat) => (n : Int))

/-- `str.split(sep)` for a one-character separator (never returns an
empty list). -/
def splitOnChar (c : Char) : List Char → List (List Char)
  | [] => [[]]
  | a :: rest =>
    match splitOnChar c rest with
    | [] => [[]]
    | g :: gs => if a = c then [] :: g :: gs else (a :: g) :: gs

/-- `k1, k2 = map(int, key.split(','))` — succeeds exactly when the split
yields two parts and both parse as integers; any other outcome raises
(`ValueError` from `int` or from unpacking), modelled by `none`. -/
def parsePair (key : List Char) : Option (Int × Int) :=
  match splitOnChar ',' key with
  | [a, b] =>
    match pyInt? a, pyInt? b with
    | some x, some y => some (x, y)
    | _, _ => none
  | _ => none

/-- The key-parsing loop of `BPEEncoder.from_file`:
`for key, value in data["merges"].items(): k1, k2 = map(int, key.split(','));
merges[(k1, k2)] = value`. -/
def fromFileMergesAux (d : MergeDict) :
    List (List Char × Int) → Option MergeDict
  | [] => some d
  | (k, v) :: rest =>
    match parsePair k with
    | none => none
    | some p => fromFileMergesAux (dinsert d p v) rest

def fromFileMerges (entries : List (List Char × Int)) : Option MergeDict :=
  fromFileMergesAux [] entries

/-- All of `BPEEncoder.from_file`: parse the persisted `merges` mapping
(in file iteration order), then run the constructor, which builds the
vocabulary.  `none` models any raised exception. -/
def loadEncoder (entries : List (List Char × Int)) :
    Option (MergeDict × Vocab) :=
  match fromFileMerges entries with
  | none => none
  | some m =>
    match buildVocab m with
    | none => none
    | some V => some (m, V)

def digitChar (n : Nat) : Char := Char.ofNat (48 + n)

/-- Decimal digits of a natural number (Python `str` formatting). -/
def natToChars (n : Nat) : List Char :=
  if n < 10 then [digitChar n]
  else natToChars (n / 10) ++ [digitChar (n % 10)]
decreasing_by exact Nat.div_lt_self (by omega) (by omega)

/-- Python string formatting of an `int`. -/
def intToChars (i : Int) : List Char :=
  if i < 0 then '-' :: natToChars i.natAbs else natToChars i.toNat

/-- `f"{k[0]},{k[1]}"` — the key `BPEEncoder.save` writes. -/
def fmtKey (p : Int × Int) : List Char :=
  intToChars p.1 ++ ',' :: intToChars p.2

/-- The `merges` mapping `BPEEncoder.save` serializes, in dict order. -/
def saveEntries (m : MergeDict) : List (List Char × Int) :=
  m.map (fun e => (fmtKey e.1, e.2))

/-- The `num_merges` field `BPEEncoder.save` writes: `len(self.merges)`. -/
def saveNumMerges (m : MergeDict) : Nat := m.length

/-- The value of the last entry whose key parses to `p` (none if no such
entry): what overwrite-on-duplicate leaves in the table. -/
def lastVal (entries : List (List Char × Int)) (p : Int × Int) : Option Int :=
  entries.foldl (fun acc kv => if parsePair kv.1 = some p then some kv.2 else acc)
    none

theorem digitChar_toNat (d : Nat) (hd : d < 10) :
    (digitChar d).toNat = 48 + d := by
  interval_cases d <;> decide

theorem natToChars_ne_nil (n : Nat) : natToChars n ≠ [] := by
  rw [natToChars.eq_def]
  by_cases h : n < 10
  · rw [if_pos h]
    simp
  · rw [if_neg h]
    simp

theorem natToChars_digits (n : Nat) :
    ∀ ch ∈ natToChars n, 48 ≤ ch.toNat ∧ ch.toNat ≤ 57 := by
  induction n using Nat.strong_induction_on with
  | _ n ih =>
    rw [natToChars.eq_def]
    by_cases h : n < 10
    · rw [if_pos h]
      intro ch hch
      rw [List.mem_singleton] at hch
      subst hch
      rw [digitChar_toNat n h]
      omega
    · rw [if_neg h]
      intro ch hch
      rcases List.mem_append.1 hch with hch | hch
      · exact ih (n / 10) (Nat.div_lt_self (by omega) (by omega)) ch hch
      · rw [List.mem_singleton] at hch
        subst hch
        rw [digitChar_toNat (n % 10) (by omega)]
        omega

theorem natToChars_foldl (n : Nat) : ∀ acc : Nat,
    (natToChars n).foldl (fun a c => a * 10 + (c.toNat - 48)) acc =
      acc * 10 ^ (natToChars n).length + n := by
  induction n using Nat.strong_induction_on with
  | _ n ih =>
    intro acc
    rw [natToChars.eq_def]
    by_cases h : n < 10
    · rw [if_pos h]
      simp only [List.foldl_cons, List.foldl_nil, List.length_singleton,
        pow_one]
      rw [digitChar_toNat n h]
      omega
    · rw [if_neg h]
      rw [List.foldl_append, ih (n / 10) (Nat.div_lt_self (by omega) (by omega)) acc]
      simp only [List.foldl_cons, List.foldl_nil, List.length_append,
        List.length_singleton]
      rw [digitChar_toNat (n % 10) (by omega), pow_succ]
      have hK : (0 : Nat) ≤ 10 ^ (natToChars (n / 10)).length := Nat.zero_le _
      generalize 10 ^ (natToChars (n / 10)).length = K at *
      ring_nf
      omega

theorem digitsVal?_natToChars (n : Nat) : digitsVal? (natToChars n) = some n := by
  unfold digitsVal?
  rw [if_pos ?_]
  · rw [natToChars_foldl n 0]
    simp
  · refine ⟨natToChars_ne_nil n, ?_⟩
    rw [List.all_eq_true]
    intro ch hch
    have := natToChars_digits n ch hch
    simp only [isDigitCh, decide_eq_true_eq]
    omega

theorem intToChars_chars (i : Int) :
    ∀ ch ∈ intToChars i, ch.toNat = 45 ∨ (48 ≤ ch.toNat ∧ ch.toNat ≤ 57) := by
  intro ch hch
  unfold intToChars at hch
  by_cases h : i < 0
  · rw [if_pos h] at hch
    rcases List.mem_cons.1 hch with rfl | hch
    · left; decide
    · exact Or.inr (natToChars_digits _ ch hch)
  · rw [if_neg h] at hch
    exact Or.inr (natToChars_digits _ ch hch)

theorem intToChars_no_comma (i : Int) : ',' ∉ intToChars i := by
  intro hmem
  rcases intToChars_chars i ',' hmem with h | h
  · exact absurd h (by decide)
  · exact absurd h (by decide)

theorem intToChars_no_space (i : Int) :
    ∀ ch ∈ intToChars i, isSpaceCh ch = false := by
  intro ch hch
  rcases intToChars_chars i ch hch with h | h <;>
    · simp only [isSpaceCh, decide_eq_false_iff_not]
      omega

theorem dropWhile_eq_self_of_none {α : Type} (p : α → Bool) (l : List α)
    (h : ∀ a ∈ l, p a = false) : l.dropWhile p = l := by
  cases l with
  | nil => rfl
  | cons a l =>
    rw [List.dropWhile_cons, if_neg]
    rw [h a (List.mem_cons_self _ _)]
    simp

theorem trimChars_eq_self (cs : List Char)
    (h : ∀ c ∈ cs, isSpaceCh c = false) : trimChars cs = cs := by
  unfold trimChars
  rw [dropWhile_eq_self_of_none _ cs h]
  rw [dropWhile_eq_self_of_none _ cs.reverse
    (fun c hc => h c (List.mem_reverse.1 hc))]
  exact List.reverse_reverse cs

theorem pyInt?_intToChars (i : Int) : pyInt? (intToChars i) = some i := by
  unfold pyInt?
  rw [trimChars_eq_self _ (intToChars_no_space i)]
  unfold intToChars
  by_cases h : i < 0
  · rw [if_pos h]
    dsimp only
    rw [if_pos rfl]
    rw [digitsVal?_natToChars]
    simp only [Option.map_some']
    congr 1
    omega
  · rw [if_neg h]
    obtain ⟨c, rest, hl⟩ : ∃ c rest, natToChars i.toNat = c :: rest := by
      cases hn : natToChars i.toNat with
      | nil => exact absurd hn (natToChars_ne_nil _)
      | cons c rest => exact ⟨c, rest, rfl⟩
    rw [hl]
    have hdig := natToChars_digits i.toNat c (by rw [hl]; exact List.mem_cons_self _ _)
    dsimp only
    rw [if_neg ?_, if_neg ?_]
    · rw [← hl, digitsVal?_natToChars]
      simp only [Option.map_some']
      congr 1
      omega
    · intro hc
      subst hc
      revert hdig
      decide
    · intro hc
      subst hc
      revert hdig
      decide

theorem splitOnChar_ne_nil (c : Char) (s : List Char) : splitOnChar c s ≠ [] := by
  cases s with
  | nil => simp [splitOnChar]
  | cons a rest =>
    rw [splitOnChar]
    cases splitOnChar c rest with
    | nil => simp
    | cons g gs =>
      dsimp only
      by_cases h : a = c
      · rw [if_pos h]; simp
      · rw [if_neg h]; simp

theorem splitOnChar_no_sep (c : Char) (s : List Char) (h : c ∉ s) :
    splitOnChar c s = [s] := by
  induction s with
  | nil => rfl
  | cons a rest ih =>
    have hrest : c ∉ rest := fun hr => h (List.mem_cons_of_mem _ hr)
    have hac : ¬a = c := fun he => h (he ▸ List.mem_cons_self _ _)
    rw [splitOnChar, ih hrest]
    dsimp only
    rw [if_neg hac]

theorem splitOnChar_append (c : Char) (s1 s2 : List Char) (h : c ∉ s1) :
    splitOnChar c (s1 ++ c :: s2) = s1 :: splitOnChar c s2 := by
  induction s1 with
  | nil =>
    rw [List.nil_append, splitOnChar]
    cases hs : splitOnChar c s2 with
    | nil => exact absurd hs (splitOnChar_ne_nil c s2)
    | cons g gs =>
      dsimp only
      rw [if_pos rfl]
  | cons a s1 ih =>
    have hs1 : c ∉ s1 := fun hr => h (List.mem_cons_of_mem _ hr)
    have hac : ¬a = c := fun he => h (he ▸ List.mem_cons_self _ _)
    rw [List.cons_append, splitOnChar, ih hs1]
    dsimp only
    rw [if_neg hac]

/-- Formatting a key with `save` and parsing it back with `from_file`'s
key parser is the identity. -/
theorem parsePair_fmtKey (p : Int × Int) : parsePair (fmtKey p) = some p := by
  unfold parsePair fmtKey
  rw [splitOnChar_append ',' (intToChars p.1) (intToChars p.2)
    (intToChars_no_comma p.1)]
  rw [splitOnChar_no_sep ',' (intToChars p.2) (intToChars_no_comma p.2)]
  dsimp only
  rw [pyInt?_intToChars, pyInt?_intToChars]

theorem fromFileMergesAux_save (m' : MergeDict) : ∀ d : MergeDict,
    (m'.map (fun e => e.1)).Nodup → (∀ e ∈ m', dget d e.1 = none) →
    fromFileMergesAux d (saveEntries m') = some (d ++ m') := by
  induction m' with
  | nil =>
    intro d _ _
    simp [saveEntries, fromFileMergesAux]
  | cons e m' ih =>
    intro d hnodup hdisj
    simp only [saveEntries, List.map_cons] at *
    rw [fromFileMergesAux, parsePair_fmtKey]
    dsimp only
    rw [dinsert_fresh d e.1 e.2 (hdisj e (List.mem_cons_self _ _))]
    have hkey : e.1 ∉ m'.map (fun f => f.1) := (List.nodup_cons.1 hnodup).1
    have hrec := ih (d ++ [(e.1, e.2)]) (List.nodup_cons.1 hnodup).2 ?_
    · rw [hrec]
      rw [Prod.mk.eta, List.append_assoc, List.singleton_append]
    · intro f hf
      rw [dget_append]
      rw [hdisj f (List.mem_cons_of_mem _ hf)]
      have hne : ¬e.1 = f.1 := by
        intro he
        exact hkey (he ▸ List.mem_map_of_mem _ hf)
      simp only [dget, if_neg hne]

/-- **C7**: saving a MergeTable (keys `"<left>,<right>"`, `num_merges`
the rule count) and reloading the persisted `merges` mapping yields
exactly the same `(left,right) -> result` entries.  The hypothesis —
keys are unique — holds for every table living in a Python dict. -/
theorem c7_save_load_round_trip (m : MergeDict)
    (hkeys : (m.map (fun e => e.1)).Nodup) :
    saveNumMerges m = m.length ∧ fromFileMerges (saveEntries m) = some m := by
  refine ⟨rfl, ?_⟩
  have h := fromFileMergesAux_save m [] hkeys (fun e _ => rfl)
  rw [fromFileMerges, h, List.nil_append]

/-- Witness for C7 at the two-rule table
`{(104,105): 256, (-3,256): 257}` (covering a negative operand). -/
theorem c7_save_load_round_trip_witness :
    saveNumMerges [((104, 105), 256), ((-3, 256), 257)] =
      ([((104, 105), 256), ((-3, 256), 257)] : MergeDict).length ∧
    fromFileMerges (saveEntries [((104, 105), 256), ((-3, 256), 257)]) =
      some [((104, 105), 256), ((-3, 256), 257)] :=
  c7_save_load_round_trip [((104, 105), 256), ((-3, 256), 257)] (by decide)

theorem fromFileMergesAux_lastVal (entries : List (List Char × Int)) :
    ∀ d : MergeDict, (∀ kv ∈ entries, (parsePair kv.1).isSome) →
    ∃ m, fromFileMergesAux d entries = some m ∧
      ∀ p, dget m p = entries.foldl
        (fun acc kv => if parsePair kv.1 = some p then some kv.2 else acc)
        (dget d p) := by
  induction entries with
  | nil =>
    intro d _
    exact ⟨d, rfl, fun p => rfl⟩
  | cons kv rest ih =>
    intro d hall
    obtain ⟨k, v⟩ := kv
    obtain ⟨q, hq⟩ := Option.isSome_iff_exists.1
      (hall (k, v) (List.mem_cons_self _ _))
    obtain ⟨m, hm, hval⟩ := ih (dinsert d q v)
      (fun kv' hkv' => hall kv' (List.mem_cons_of_mem _ hkv'))
    refine ⟨m, ?_, ?_⟩
    · rw [fromFileMergesAux, hq]
      exact hm
    · intro p
      rw [hval p, List.foldl_cons]
      congr 1
      by_cases hp : q = p
      · subst hp
        rw [dget_dinsert_self, if_pos hq]
      · rw [dget_dinsert_ne d q p v (fun he => hp he.symm), if_neg]
        intro hc
        rw [hq] at hc
        exact hp (Option.some_injective _ hc)

/-- **C8**: duplicate `(left,right)` keys in the persisted mapping never
make the merges-table construction fail; the dict ends up holding, for
every pair, the value of the *last* entry (in file iteration order) whose
key parses to that pair — later entries silently overwrite earlier
ones. -/
theorem c8_duplicate_overwrite (entries : List (List Char × Int))
    (hall : ∀ kv ∈ entries, (parsePair kv.1).isSome) :
    ∃ m, fromFileMerges entries = some m ∧
      ∀ p, dget m p = lastVal entries p := by
  obtain ⟨m, hm, hval⟩ := fromFileMergesAux_lastVal entries [] hall
  exact ⟨m, hm, fun p => hval p⟩

/-- Witness for C8: the keys `"0,1"` and `"00,1"` both parse to `(0,1)`;
loading succeeds and the later value wins. -/
theorem c8_duplicate_overwrite_witness :
    ∃ m, fromFileMerges [(['0', ',', '1'], 300), (['0', '0', ',', '1'], 301)]
        = some m ∧
      ∀ p, dget m p =
        lastVal [(['0', ',', '1'], 300), (['0', '0', ',', '1'], 301)] p :=
  c8_duplicate_overwrite [(['0', ',', '1'], 300), (['0', '0', ',', '1'], 301)]
    (by decide)

theorem fromFileMergesAux_none (entries : List (List Char × Int)) :
    ∀ (d : MergeDict) (k : List Char) (v : Int), (k, v) ∈ entries →
    parsePair k = none → fromFileMergesAux d entries = none := by
  induction entries with
  | nil =>
    intro d k v hkv _
    simp at hkv
  | cons kv rest ih =>
    intro d k v hkv hnone
    obtain ⟨k0, v0⟩ := kv
    cases hq : parsePair k0 with
    | none => rw [fromFileMergesAux, hq]
    | some q =>
      rw [fromFileMergesAux, hq]
      dsimp only
      rcases List.mem_cons.1 hkv with heq | hkv'
      · obtain ⟨rfl, -⟩ := Prod.mk.injEq .. ▸ heq
        rw [hnone] at hq
        exact Option.noConfusion hq
      · exact ih (dinsert d q v0) k v hkv' hnone

/-- Vocabulary construction succeeds whenever every rule's operands are
base bytes or results of rules with strictly smaller results (no result
uniqueness or `> 255` bound needed for mere success). -/
theorem buildVocab_isSome_of_refs (m : MergeDict)
    (href : ∀ e ∈ m, opEarlier m e.2 e.1.1 ∧ opEarlier m e.2 e.1.2) :
    (buildVocab m).isSome := by
  have hsort := sortMerges_sorted m
  have hmem : ∀ e, e ∈ sortMerges m ↔ e ∈ m := fun e => (sortMerges_perm m).mem_iff
  have hops : ∀ e ∈ sortMerges m,
      ((dget baseVocab e.1.1).isSome ∨
        ∃ e' ∈ sortMerges m, e'.2 = e.1.1 ∧ e'.2 < e.2) ∧
      ((dget baseVocab e.1.2).isSome ∨
        ∃ e' ∈ sortMerges m, e'.2 = e.1.2 ∧ e'.2 < e.2) := by
    intro e he
    obtain ⟨h1, h2⟩ := href e ((hmem e).1 he)
    constructor
    · rcases h1 with hb | ⟨e', he'', hp, hl⟩
      · left
        rw [dget_baseVocab_int _ hb]
        rfl
      · exact Or.inr ⟨e', (hmem e').2 he'', hp, hl⟩
    · rcases h2 with hb | ⟨e', he'', hp, hl⟩
      · left
        rw [dget_baseVocab_int _ hb]
        rfl
      · exact Or.inr ⟨e', (hmem e').2 he'', hp, hl⟩
  obtain ⟨V, hV⟩ := buildVocabAux_some (sortMerges m) baseVocab hsort hops
  rw [buildVocab, hV]
  rfl

/-- **C2 (amended)**: loading fails when some key of the persisted
`merges` mapping cannot be parsed into two integers; a duplicated result
or a result ≤ 255 does *not* make it fail — when every key parses and
every rule references only base bytes or results of strictly earlier
rules, construction succeeds. -/
theorem c2_load_failure (entries : List (List Char × Int)) :
    ((∃ kv ∈ entries, parsePair kv.1 = none) → loadEncoder entries = none) ∧
    (∀ m, fromFileMerges entries = some m →
      (∀ e ∈ m, opEarlier m e.2 e.1.1 ∧ opEarlier m e.2 e.1.2) →
      (loadEncoder entries).isSome) := by
  constructor
  · rintro ⟨kv, hkv, hnone⟩
    obtain ⟨k, v⟩ := kv
    have h := fromFileMergesAux_none entries [] k v hkv hnone
    rw [loadEncoder, fromFileMerges, h]
  · intro m hm href
    obtain ⟨V, hV⟩ := Option.isSome_iff_exists.1 (buildVocab_isSome_of_refs m href)
    rw [loadEncoder, hm]
    dsimp only
    rw [hV]
    rfl

/-- Counterexample to C2 as stated: the persisted mapping
`{"0,1": 100}` has a result ≤ 255, which the claim says must fail with a
FormatError — yet loading succeeds (`from_file` never validates results;
`_build_vocab` silently overwrites the base entry for 100). -/
theorem c2_load_failure_counterexample :
    (loadEncoder [(['0', ',', '1'], 100)]).isSome = true := by decide

/-- Witness for C2 (amended), instantiated at the mapping
`{"x": 5}` (malformed key: load fails) for the first conjunct and at
`{"0,1": 100}` for the second (result 100 ≤ 255, references base bytes:
load succeeds). -/
theorem c2_load_failure_witness :
    loadEncoder [(['x'], 5)] = none ∧
    (loadEncoder [(['0', ',', '1'], 100)]).isSome := by
  constructor
  · exact (c2_load_failure [(['x'], 5)]).1
      ⟨(['x'], 5), List.mem_cons_self _ _, by decide⟩
  · exact (c2_load_failure [(['0', ',', '1'], 100)]).2 [((0, 1), 100)]
      (by decide) (by decide)

end BPE
